import Mathlib

/-!
Verification of the cross-process communication subsystem of cmp-embed.

The definitions below are a shallow embedding of the C++ sources under
src/juce_cmp: the coalescing event dispatcher (EventReceiver.h), the framed
reader loop shared by EventReceiver.h and UIReceiver.h, the input-event
factory (InputEvent.h), the child-process supervisor (ChildProcess.cpp) and
the session orchestrator (ComposeProvider.cpp).
-/

namespace JuceCmp

/-- Scalar values carried by juce::var properties of a juce::ValueTree,
restricted to the scalar kinds the protocol uses (string / integer number /
bool, plus the void var returned for a missing property). -/
inductive JVal where
  | void
  | str (s : String)
  | intV (n : Int)
  | boolV (b : Bool)
deriving DecidableEq, Repr, Inhabited

/-- juce::var::toString for the scalar kinds above (used by
EventReceiver::enqueue to build the coalescing key from the id property). -/
def JVal.toText : JVal → String
  | .void => ""
  | .str s => s
  | .intV n => toString n
  | .boolV b => if b then "1" else "0"

/-- A decoded juce::ValueTree as the dispatcher sees it: a type tag and named
scalar properties.  Children are never used by the protocol messages. -/
structure VTree where
  typ : String
  props : List (String × JVal)
deriving DecidableEq, Repr, Inhabited

/-- juce::ValueTree::hasProperty. -/
def VTree.hasProp (t : VTree) (name : String) : Bool :=
  (t.props.lookup name).isSome

/-- juce::ValueTree::getProperty (void var when absent). -/
def VTree.getProp (t : VTree) (name : String) : JVal :=
  (t.props.lookup name).getD .void

/-- std::map lookup on the pending-dispatch table. -/
def lookupP (l : List (String × VTree)) (k : String) : Option VTree :=
  l.lookup k

/-- std::map operator[] assignment: update the entry in place when the key is
present, append it otherwise. -/
def insertP (l : List (String × VTree)) (k : String) (t : VTree) :
    List (String × VTree) :=
  match l with
  | [] => [(k, t)]
  | (k', t') :: rest =>
      if k' = k then (k, t) :: rest else (k', t') :: insertP rest k t

/-- std::map::erase of the key (first matching entry). -/
def eraseP (l : List (String × VTree)) (k : String) : List (String × VTree) :=
  match l with
  | [] => []
  | (k', t') :: rest =>
      if k' = k then rest else (k', t') :: eraseP rest k

/-- The coalescing key computed by EventReceiver::enqueue: the type tag,
extended with the id property when the type is param and the property is
present. -/
def coalesceKey (t : VTree) : String :=
  let typeStr := t.typ
  if typeStr = "param" ∧ t.hasProp "id" then
    typeStr ++ "_" ++ (t.getProp "id").toText
  else
    typeStr

/-- State of EventReceiver relevant to dispatch: the pending-dispatch table
(pendingTrees), the FIFO queue of delivery closures already handed to
juce::MessageManager::callAsync (one key per scheduled closure), and the log
of callback invocations performed so far. -/
structure RecvState where
  pending : List (String × VTree)
  scheduled : List String
  delivered : List VTree
deriving DecidableEq, Repr, Inhabited

/-- The state of a freshly constructed EventReceiver. -/
def initState : RecvState := ⟨[], [], []⟩

/-- EventReceiver::enqueue.  The handler flag is the value of onCustomEvent at
the moment the reader thread runs the function: when no handler is registered
the tree is discarded immediately.  Otherwise the tree is stored under its
coalescing key, and a delivery is scheduled only when the key had no pending
entry (wasEmpty). -/
def enqueue (handler : Bool) (t : VTree) (s : RecvState) : RecvState :=
  if handler then
    let k := coalesceKey t
    let wasEmpty := lookupP s.pending k = none
    let pending := insertP s.pending k t
    if wasEmpty then
      { s with pending := pending, scheduled := s.scheduled ++ [k] }
    else
      { s with pending := pending }
  else
    s

/-- One scheduled delivery running on the message thread: the closure at the
head of the MessageManager queue pops its key from the table under the lock,
and invokes the callback outside the lock only when an entry was found and a
handler is still registered.  The handler flag is the value of onCustomEvent
at delivery time. -/
def deliver (handler : Bool) (s : RecvState) : RecvState :=
  match s.scheduled with
  | [] => s
  | k :: ks =>
      match lookupP s.pending k with
      | some t =>
          { pending := eraseP s.pending k
            scheduled := ks
            delivered := if handler then s.delivered ++ [t] else s.delivered }
      | none => { s with scheduled := ks }

/-- An atomic step of the dispatcher: either the reader thread enqueues a
decoded tree, or the message thread runs the next scheduled delivery.  Each
carries the handler registration state observed during that step. -/
inductive Step where
  | enq (handler : Bool) (t : VTree)
  | del (handler : Bool)
deriving DecidableEq, Repr

/-- Apply one step. -/
def applyStep (s : RecvState) : Step → RecvState
  | .enq h t => enqueue h t s
  | .del h => deliver h s

/-- Run a sequence of steps from a given state. -/
def runFrom (s : RecvState) (steps : List Step) : RecvState :=
  steps.foldl applyStep s

/-- Run a sequence of steps from the initial state. -/
def run (steps : List Step) : RecvState := runFrom initState steps

/-- A state is reachable when some interleaving of reader-thread enqueues and
message-thread deliveries produces it from the initial state. -/
def Reachable (s : RecvState) : Prop := ∃ steps, run steps = s

end JuceCmp

namespace JuceCmp

theorem lookupP_insertP_self (l : List (String × VTree)) (k : String)
    (t : VTree) : lookupP (insertP l k t) k = some t := by
  induction l with
  | nil => simp [insertP, lookupP]
  | cons p rest ih =>
      obtain ⟨k', t'⟩ := p
      by_cases h : k' = k
      · simp [insertP, lookupP, h]
      · simp only [insertP, lookupP, h, if_false]
        rw [List.lookup_cons]
        simp only [lookupP] at ih
        have hne : (k == k') = false := by
          simp [Ne.symm h]
        simp [hne, ih]

theorem lookupP_insertP_ne (l : List (String × VTree)) (k k' : String)
    (t : VTree) (h : k' ≠ k) :
    lookupP (insertP l k t) k' = lookupP l k' := by
  induction l with
  | nil =>
      have hne : (k' == k) = false := by simp [h]
      simp [insertP, lookupP, List.lookup_cons, hne]
  | cons p rest ih =>
      obtain ⟨k0, t0⟩ := p
      by_cases h0 : k0 = k
      · subst h0
        have hne : (k' == k0) = false := by simp [h]
        simp only [insertP, if_pos rfl]
        simp [lookupP, List.lookup_cons, hne]
      · simp only [insertP, h0, if_false]
        simp only [lookupP, List.lookup_cons] at *
        by_cases h1 : k' = k0
        · simp [h1]
        · have : (k' == k0) = false := by simp [h1]
          simp [this, ih]

/-- Enqueueing a same-key tree into a state whose table already holds exactly
that key replaces the stored tree and schedules nothing new. -/
theorem enqueue_replace (t0 t : VTree) (k : String) (sch : List String)
    (d : List VTree) (hk : coalesceKey t = k) :
    enqueue true t ⟨[(k, t0)], sch, d⟩ = ⟨[(k, t)], sch, d⟩ := by
  simp [enqueue, hk, lookupP, insertP, List.lookup_cons]

/-- Folding same-key enqueues over a single-entry table keeps a single entry
holding the most recent tree, and never grows the scheduled queue. -/
theorem foldl_enqueue_replace (ts : List VTree) (k : String) (t0 : VTree)
    (sch : List String) (d : List VTree)
    (hts : ∀ t ∈ ts, coalesceKey t = k) :
    runFrom ⟨[(k, t0)], sch, d⟩ (ts.map (Step.enq true)) =
      ⟨[(k, (ts.getLastD t0))], sch, d⟩ := by
  induction ts generalizing t0 with
  | nil => simp [runFrom]
  | cons t rest ih =>
      have hk : coalesceKey t = k := hts t (List.mem_cons_self t rest)
      have hrest : ∀ u ∈ rest, coalesceKey u = k := fun u hu =>
        hts u (List.mem_cons_of_mem t hu)
      simp only [List.map_cons, runFrom, List.foldl_cons]
      have h1 : applyStep ⟨[(k, t0)], sch, d⟩ (Step.enq true t) =
          ⟨[(k, t)], sch, d⟩ := by
        simp [applyStep, enqueue_replace t0 t k sch d hk]
      rw [h1]
      have := ih t hrest
      simp only [runFrom] at this
      rw [this]
      rw [List.getLastD_cons]

theorem lookupP_isSome_iff (l : List (String × VTree)) (k : String) :
    (lookupP l k).isSome = true ↔ k ∈ l.map Prod.fst := by
  induction l with
  | nil => simp [lookupP]
  | cons p rest ih =>
      obtain ⟨k0, t0⟩ := p
      by_cases h : k = k0
      · simp [lookupP, List.lookup_cons, h]
      · have hne : (k == k0) = false := by simp [h]
        simp only [lookupP, List.lookup_cons, hne] at *
        simp [ih, h]

theorem lookupP_mem (l : List (String × VTree)) (k : String) (t : VTree)
    (h : lookupP l k = some t) : (k, t) ∈ l := by
  induction l with
  | nil => simp [lookupP] at h
  | cons p rest ih =>
      obtain ⟨k0, t0⟩ := p
      by_cases hk : k = k0
      · subst hk
        simp [lookupP, List.lookup_cons] at h
        simp [h]
      · have hne : (k == k0) = false := by simp [hk]
        simp only [lookupP, List.lookup_cons, hne] at h
        exact List.mem_cons_of_mem _ (ih h)

theorem mem_insertP (l : List (String × VTree)) (k : String) (t : VTree)
    (p : String × VTree) (h : p ∈ insertP l k t) : p ∈ l ∨ p = (k, t) := by
  induction l with
  | nil => simp [insertP] at h; simp [h]
  | cons q rest ih =>
      obtain ⟨k0, t0⟩ := q
      by_cases hk : k0 = k
      · simp only [insertP, if_pos hk] at h
        rcases List.mem_cons.mp h with h1 | h1
        · right; exact h1
        · left; exact List.mem_cons_of_mem _ h1
      · simp only [insertP, if_neg hk] at h
        rcases List.mem_cons.mp h with h1 | h1
        · left; simp [h1]
        · rcases ih h1 with h2 | h2
          · left; exact List.mem_cons_of_mem _ h2
          · right; exact h2

theorem mem_keys_insertP (l : List (String × VTree)) (k k' : String)
    (t : VTree) :
    k' ∈ (insertP l k t).map Prod.fst ↔ k' = k ∨ k' ∈ l.map Prod.fst := by
  induction l with
  | nil => simp [insertP]
  | cons q rest ih =>
      obtain ⟨k0, t0⟩ := q
      by_cases hk : k0 = k
      · subst hk
        simp only [insertP, if_true, eq_self_iff_true, List.map_cons,
          List.mem_cons]
        tauto
      · simp only [insertP, if_neg hk, List.map_cons, List.mem_cons]
        rw [ih]
        tauto

theorem keysNodup_insertP (l : List (String × VTree)) (k : String) (t : VTree)
    (h : (l.map Prod.fst).Nodup) : ((insertP l k t).map Prod.fst).Nodup := by
  induction l with
  | nil => simp [insertP]
  | cons q rest ih =>
      obtain ⟨k0, t0⟩ := q
      simp only [List.map_cons, List.nodup_cons] at h
      by_cases hk : k0 = k
      · subst hk
        simp only [insertP, if_true, eq_self_iff_true, List.map_cons,
          List.nodup_cons]
        exact h
      · simp only [insertP, if_neg hk, List.map_cons, List.nodup_cons]
        refine ⟨?_, ih h.2⟩
        intro hmem
        rcases (mem_keys_insertP rest k k0 t).mp hmem with h1 | h1
        · exact hk h1
        · exact h.1 h1

theorem eraseP_sublist (l : List (String × VTree)) (k : String) :
    (eraseP l k).Sublist l := by
  induction l with
  | nil => simp [eraseP]
  | cons q rest ih =>
      obtain ⟨k0, t0⟩ := q
      by_cases hk : k0 = k
      · simp only [eraseP, if_pos hk]
        exact List.sublist_cons_self _ _
      · simp only [eraseP, if_neg hk]
        exact List.Sublist.cons₂ _ ih

theorem lookupP_eraseP_ne (l : List (String × VTree)) (k k' : String)
    (h : k' ≠ k) : lookupP (eraseP l k) k' = lookupP l k' := by
  induction l with
  | nil => simp [eraseP]
  | cons q rest ih =>
      obtain ⟨k0, t0⟩ := q
      by_cases hk : k0 = k
      · subst hk
        have hne : (k' == k0) = false := by simp [h]
        simp only [eraseP, if_pos rfl]
        simp [lookupP, List.lookup_cons, hne]
      · simp only [eraseP, if_neg hk]
        simp only [lookupP, List.lookup_cons] at *
        by_cases h1 : k' = k0
        · simp [h1]
        · have hne : (k' == k0) = false := by simp [h1]
          simp [hne, ih]

theorem lookupP_eraseP_self (l : List (String × VTree)) (k : String)
    (h : (l.map Prod.fst).Nodup) : lookupP (eraseP l k) k = none := by
  induction l with
  | nil => simp [eraseP, lookupP]
  | cons q rest ih =>
      obtain ⟨k0, t0⟩ := q
      simp only [List.map_cons, List.nodup_cons] at h
      by_cases hk : k0 = k
      · subst hk
        simp only [eraseP, if_pos rfl]
        rcases ho : lookupP rest k0 with _ | t
        · exact ho
        · exact absurd (List.mem_map_of_mem Prod.fst (lookupP_mem rest k0 t ho)) h.1
      · have hne : (k == k0) = false := beq_eq_false_iff_ne.mpr (Ne.symm hk)
        simp only [eraseP, if_neg hk]
        simp only [lookupP, List.lookup_cons, hne]
        exact ih h.2

theorem coalesceKey_param (t : VTree) (h1 : t.typ = "param")
    (h2 : t.hasProp "id" = true) :
    coalesceKey t = "param" ++ "_" ++ (t.getProp "id").toText := by
  simp [coalesceKey, h1, h2]

/-- The dispatcher invariant: the scheduled-delivery queue holds no duplicate
keys, the pending table holds no duplicate keys, and a key is scheduled
exactly when the table holds an entry for it. -/
def Inv (s : RecvState) : Prop :=
  s.scheduled.Nodup ∧ (s.pending.map Prod.fst).Nodup ∧
    ∀ k, k ∈ s.scheduled ↔ (lookupP s.pending k).isSome = true

theorem inv_initState : Inv initState := by
  refine ⟨List.nodup_nil, List.nodup_nil, ?_⟩
  intro k
  simp [initState, lookupP]

theorem enqueue_true_def (t : VTree) (s : RecvState) :
    enqueue true t s =
      if lookupP s.pending (coalesceKey t) = none then
        { s with pending := insertP s.pending (coalesceKey t) t,
                 scheduled := s.scheduled ++ [coalesceKey t] }
      else { s with pending := insertP s.pending (coalesceKey t) t } := rfl

theorem inv_enqueue (hnd : Bool) (t : VTree) (s : RecvState) (h : Inv s) :
    Inv (enqueue hnd t s) := by
  obtain ⟨hsch, hkeys, hiff⟩ := h
  cases hnd with
  | false => exact ⟨hsch, hkeys, hiff⟩
  | true =>
      by_cases he : lookupP s.pending (coalesceKey t) = none
      · have hout : coalesceKey t ∉ s.scheduled := by
          intro hmem
          have := (hiff (coalesceKey t)).mp hmem
          rw [he] at this
          simp at this
        rw [enqueue_true_def, if_pos he]
        refine ⟨?_, ?_, ?_⟩
        · refine List.Nodup.append hsch (List.nodup_singleton _) ?_
          intro a ha hb
          rw [List.mem_singleton] at hb
          subst hb
          exact hout ha
        · exact keysNodup_insertP _ _ _ hkeys
        · intro k
          by_cases hk : k = coalesceKey t
          · subst hk
            simp [lookupP_insertP_self]
          · show k ∈ s.scheduled ++ [coalesceKey t] ↔
              (lookupP (insertP s.pending (coalesceKey t) t) k).isSome = true
            rw [lookupP_insertP_ne _ _ _ _ hk]
            simp only [List.mem_append, List.mem_singleton]
            constructor
            · intro hm
              rcases hm with hm | hm
              · exact (hiff k).mp hm
              · exact absurd hm hk
            · intro hm
              exact Or.inl ((hiff k).mpr hm)
      · rw [enqueue_true_def, if_neg he]
        refine ⟨hsch, keysNodup_insertP _ _ _ hkeys, ?_⟩
        intro k
        show k ∈ s.scheduled ↔
          (lookupP (insertP s.pending (coalesceKey t) t) k).isSome = true
        by_cases hk : k = coalesceKey t
        · subst hk
          have hsome : (lookupP s.pending (coalesceKey t)).isSome = true := by
            rcases ho : lookupP s.pending (coalesceKey t) with _ | u
            · exact absurd ho he
            · simp
          simp [lookupP_insertP_self, (hiff (coalesceKey t)).mpr hsome]
        · rw [lookupP_insertP_ne _ _ _ _ hk]
          exact hiff k

theorem inv_deliver (hnd : Bool) (s : RecvState) (h : Inv s) :
    Inv (deliver hnd s) := by
  obtain ⟨hsch, hkeys, hiff⟩ := h
  rcases hs : s.scheduled with _ | ⟨k, ks⟩
  · simpa [deliver, hs] using ⟨hsch, hkeys, hiff⟩
  · have hkmem : k ∈ s.scheduled := by rw [hs]; exact List.mem_cons_self _ _
    have hksome := (hiff k).mp hkmem
    rcases hl : lookupP s.pending k with _ | t
    · rw [hl] at hksome
      simp at hksome
    · rw [hs] at hsch
      refine ⟨?_, ?_, ?_⟩
      · simp only [deliver, hs, hl]
        exact (List.nodup_cons.mp hsch).2
      · simp only [deliver, hs, hl]
        exact List.Nodup.sublist
          (List.Sublist.map Prod.fst (eraseP_sublist s.pending k)) hkeys
      · intro k'
        simp only [deliver, hs, hl]
        by_cases hk : k' = k
        · subst hk
          rw [lookupP_eraseP_self _ _ hkeys]
          simp [(List.nodup_cons.mp hsch).1]
        · rw [lookupP_eraseP_ne _ _ _ hk]
          rw [← hiff k']
          rw [hs]
          simp [List.mem_cons, hk]

theorem inv_runFrom (steps : List Step) :
    ∀ s : RecvState, Inv s → Inv (runFrom s steps) := by
  induction steps with
  | nil => intro s h; simpa [runFrom] using h
  | cons st rest ih =>
      intro s h
      rw [runFrom, List.foldl_cons]
      apply ih
      cases st with
      | enq hnd t => exact inv_enqueue hnd t s h
      | del hnd => exact inv_deliver hnd s h

theorem inv_of_reachable (s : RecvState) (h : Reachable s) : Inv s := by
  obtain ⟨steps, rfl⟩ := h
  exact inv_runFrom steps initState inv_initState

/-- A decoded param message, as sent for parameter changes. -/
def paramTree (idv : Int) (val : Int) : VTree :=
  ⟨"param", [("id", .intV idv), ("value", .intV val)]⟩

/-- C1: enqueueing N same-id param messages (N ≥ 5) before the message thread
runs any scheduled delivery leaves exactly one scheduled delivery for the key,
and running it invokes the callback exactly once, with the last message of the
burst; afterwards nothing remains pending or scheduled, so no further
invocation for that key can occur. -/
theorem param_burst_coalesces (ts : List VTree) (v : JVal) (tlast : VTree)
    (hN : 5 ≤ ts.length)
    (hparam : ∀ t ∈ ts, t.typ = "param" ∧ t.hasProp "id" = true ∧
      t.getProp "id" = v)
    (hlast : ts.getLast? = some tlast) :
    (run (ts.map (Step.enq true))).scheduled = ["param" ++ "_" ++ v.toText] ∧
    (deliver true (run (ts.map (Step.enq true)))).delivered = [tlast] ∧
    (deliver true (run (ts.map (Step.enq true)))).scheduled = [] ∧
    (deliver true (run (ts.map (Step.enq true)))).pending = [] := by
  obtain ⟨t1, rest, rfl⟩ : ∃ t1 rest, ts = t1 :: rest := by
    cases ts with
    | nil => simp at hN
    | cons a b => exact ⟨a, b, rfl⟩
  have hkey : ∀ t ∈ t1 :: rest, coalesceKey t = "param" ++ "_" ++ v.toText := by
    intro t ht
    obtain ⟨h1, h2, h3⟩ := hparam t ht
    rw [coalesceKey_param t h1 h2, h3]
  have hstep1 : applyStep initState (Step.enq true t1) =
      ⟨[("param" ++ "_" ++ v.toText, t1)], ["param" ++ "_" ++ v.toText], []⟩ := by
    simp [applyStep, enqueue_true_def, initState, lookupP, insertP,
      hkey t1 (List.mem_cons_self _ _)]
  have hrun : run ((t1 :: rest).map (Step.enq true)) =
      ⟨[("param" ++ "_" ++ v.toText, rest.getLastD t1)],
        ["param" ++ "_" ++ v.toText], []⟩ := by
    rw [run, List.map_cons]
    rw [show runFrom initState (Step.enq true t1 :: rest.map (Step.enq true)) =
      runFrom (applyStep initState (Step.enq true t1))
        (rest.map (Step.enq true)) from rfl]
    rw [hstep1]
    exact foldl_enqueue_replace rest _ t1 _ []
      (fun u hu => hkey u (List.mem_cons_of_mem _ hu))
  have hlastv : rest.getLastD t1 = tlast := by
    have h1 : (t1 :: rest).getLastD t1 = tlast := by
      rw [List.getLastD_eq_getLast?, hlast]
      rfl
    rw [← List.getLastD_cons, h1]
  rw [hrun, hlastv]
  refine ⟨rfl, ?_, ?_, ?_⟩ <;>
    simp [deliver, lookupP, List.lookup_cons, eraseP]

theorem param_burst_coalesces_witness :
    (run ((List.map (fun n => paramTree 0 n) [1, 2, 3, 4, 5]).map
      (Step.enq true))).scheduled = ["param" ++ "_" ++ (JVal.intV 0).toText] ∧
    (deliver true (run ((List.map (fun n => paramTree 0 n) [1, 2, 3, 4, 5]).map
      (Step.enq true)))).delivered = [paramTree 0 5] := by
  have h := param_burst_coalesces
    (List.map (fun n => paramTree 0 n) [1, 2, 3, 4, 5]) (JVal.intV 0)
    (paramTree 0 5) (by decide) (by decide) (by decide)
  exact ⟨h.1, h.2.1⟩

/-- C2: in every reachable dispatcher state each coalescing key has at most
one scheduled delivery outstanding; the delivery step that reads a key's
entry removes it in the same step (the same lock acquisition in the source);
and a delivery that finds no entry for its key performs no callback
invocation. -/
theorem pending_table_invariant (s : RecvState) (h : Reachable s) :
    (∀ k, s.scheduled.count k ≤ 1) ∧
    (∀ hnd k ks t, s.scheduled = k :: ks → lookupP s.pending k = some t →
      (deliver hnd s).scheduled = ks ∧
      lookupP (deliver hnd s).pending k = none ∧
      (deliver hnd s).delivered =
        (if hnd then s.delivered ++ [t] else s.delivered)) ∧
    (∀ s2 : RecvState, ∀ hnd k ks, s2.scheduled = k :: ks →
      lookupP s2.pending k = none →
      (deliver hnd s2).delivered = s2.delivered) := by
  obtain ⟨hsch, hkeys, hiff⟩ := inv_of_reachable s h
  refine ⟨?_, ?_, ?_⟩
  · intro k
    exact List.nodup_iff_count_le_one.mp hsch k
  · intro hnd k ks t hs hl
    have h1 : (deliver hnd s).scheduled = ks := by
      simp [deliver, hs, hl]
    have h2 : lookupP (deliver hnd s).pending k = none := by
      simp only [deliver, hs, hl]
      exact lookupP_eraseP_self _ _ hkeys
    have h3 : (deliver hnd s).delivered =
        (if hnd then s.delivered ++ [t] else s.delivered) := by
      simp only [deliver, hs, hl]
    exact ⟨h1, h2, h3⟩
  · intro s2 hnd k ks hs hl
    simp only [deliver, hs, hl]

theorem pending_table_invariant_witness :
    ((run [Step.enq true (paramTree 1 10)]).scheduled.count
      ("param" ++ "_" ++ (JVal.intV 1).toText) ≤ 1) ∧
    ((deliver true (run [Step.enq true (paramTree 1 10)])).scheduled = [] ∧
     lookupP (deliver true (run [Step.enq true (paramTree 1 10)])).pending
       ("param" ++ "_" ++ (JVal.intV 1).toText) = none ∧
     (deliver true (run [Step.enq true (paramTree 1 10)])).delivered =
       (run [Step.enq true (paramTree 1 10)]).delivered ++ [paramTree 1 10]) ∧
    (deliver true ⟨[], ["orphan"], []⟩).delivered =
      (⟨[], ["orphan"], []⟩ : RecvState).delivered := by
  have h := pending_table_invariant (run [Step.enq true (paramTree 1 10)])
    ⟨[Step.enq true (paramTree 1 10)], rfl⟩
  refine ⟨h.1 _, ?_, ?_⟩
  · have h2 := h.2.1 true ("param" ++ "_" ++ (JVal.intV 1).toText) []
      (paramTree 1 10) (by decide) (by decide)
    simpa using h2
  · exact h.2.2 ⟨[], ["orphan"], []⟩ true "orphan" [] rfl rfl

/-- Every tree in the pending table or the delivered log of a run was enqueued
at a step where a handler was registered. -/
theorem provenance (steps : List Step) (t : VTree) :
    ∀ s : RecvState, Step.enq true t ∉ steps →
    (∀ p ∈ s.pending, p.2 ≠ t) → t ∉ s.delivered →
    (∀ p ∈ (runFrom s steps).pending, p.2 ≠ t) ∧
      t ∉ (runFrom s steps).delivered := by
  induction steps with
  | nil =>
      intro s _ hp hd
      exact ⟨hp, hd⟩
  | cons st rest ih =>
      intro s hnot hp hd
      have hnotrest : Step.enq true t ∉ rest := fun hm =>
        hnot (List.mem_cons_of_mem _ hm)
      rw [runFrom, List.foldl_cons]
      rw [show List.foldl applyStep (applyStep s st) rest =
        runFrom (applyStep s st) rest from rfl]
      refine ih (applyStep s st) hnotrest ?_ ?_
      · intro p hpmem
        cases st with
        | enq hnd u =>
            cases hnd with
            | false => exact hp p hpmem
            | true =>
                have hut : u ≠ t := by
                  intro he
                  exact hnot (he ▸ List.mem_cons_self _ _)
                rw [applyStep, enqueue_true_def] at hpmem
                by_cases he : lookupP s.pending (coalesceKey u) = none
                · rw [if_pos he] at hpmem
                  rcases mem_insertP _ _ _ p hpmem with hm | hm
                  · exact hp p hm
                  · rw [hm]; exact hut
                · rw [if_neg he] at hpmem
                  rcases mem_insertP _ _ _ p hpmem with hm | hm
                  · exact hp p hm
                  · rw [hm]; exact hut
        | del hnd =>
            rw [applyStep] at hpmem
            rcases hs : s.scheduled with _ | ⟨k, ks⟩
            · simp only [deliver, hs] at hpmem
              exact hp p hpmem
            · rcases hl : lookupP s.pending k with _ | u
              · simp only [deliver, hs, hl] at hpmem
                exact hp p hpmem
              · simp only [deliver, hs, hl] at hpmem
                exact hp p ((eraseP_sublist s.pending k).mem hpmem)
      · cases st with
        | enq hnd u =>
            cases hnd with
            | false => exact hd
            | true =>
                rw [applyStep, enqueue_true_def]
                by_cases he : lookupP s.pending (coalesceKey u) = none
                · rw [if_pos he]; exact hd
                · rw [if_neg he]; exact hd
        | del hnd =>
            rw [applyStep]
            rcases hs : s.scheduled with _ | ⟨k, ks⟩
            · simp only [deliver, hs]; exact hd
            · rcases hl : lookupP s.pending k with _ | u
              · simp only [deliver, hs, hl]; exact hd
              · have hut : u ≠ t := hp (k, u) (lookupP_mem _ _ _ hl)
                simp only [deliver, hs, hl]
                cases hnd with
                | false => exact hd
                | true =>
                    simp only [if_true]
                    intro hmem
                    rcases List.mem_append.mp hmem with hm | hm
                    · exact hd hm
                    · rw [List.mem_singleton] at hm
                      exact hut hm.symm

/-- C10: a decoded message arriving while no handler is registered is
discarded by enqueue immediately (the state is unchanged), and over any run
in which the message is only ever enqueued without a registered handler it is
never stored in the pending table and never delivered, no matter what is
enqueued or delivered later. -/
theorem no_handler_discards (steps : List Step) (t : VTree)
    (h : Step.enq true t ∉ steps) :
    (∀ s : RecvState, enqueue false t s = s) ∧
    (∀ p ∈ (run steps).pending, p.2 ≠ t) ∧
    t ∉ (run steps).delivered := by
  refine ⟨fun s => rfl, ?_, ?_⟩
  · exact (provenance steps t initState h (by simp [initState]) (by simp [initState])).1
  · exact (provenance steps t initState h (by simp [initState]) (by simp [initState])).2

theorem no_handler_discards_witness :
    enqueue false (paramTree 0 7) initState = initState ∧
    (paramTree 0 7) ∉
      (run [Step.enq false (paramTree 0 7), Step.del true,
        Step.enq true (paramTree 1 3), Step.del true]).delivered := by
  have h := no_handler_discards
    [Step.enq false (paramTree 0 7), Step.del true,
      Step.enq true (paramTree 1 3), Step.del true]
    (paramTree 0 7) (by decide)
  exact ⟨h.1 initState, h.2.2⟩

/-- The 4-byte little-endian length header written in front of every frame. -/
def encodeLE32 (n : Nat) : List Nat :=
  [n % 256, n / 256 % 256, n / 65536 % 256, n / 16777216 % 256]

/-- A frame as it appears on the wire: little-endian length then payload. -/
def encFrame (payload : List Nat) : List Nat :=
  encodeLE32 payload.length ++ payload

/-- The reader loop shared by EventReceiver::start and UIReceiver::start,
parameterised by the payload decoder (juce::ValueTree::readFromData, an
external library routine).  It returns the list of validly decoded trees in
arrival order (each of which the loop body hands on) and the bytes left
unconsumed when the loop exits.  A short header read or a short payload read
breaks the loop with the stream consumed; a size of 0 or above 1 MiB breaks
the loop before the payload region is touched; an undecodable payload is
skipped. -/
def readLoop (decode : List Nat → Option VTree) :
    List Nat → List VTree × List Nat
  | b0 :: b1 :: b2 :: b3 :: rest =>
      let size := b0 + 256 * b1 + 65536 * b2 + 16777216 * b3
      if size = 0 ∨ 1024 * 1024 < size then ([], rest)
      else if rest.length < size then ([], [])
      else
        match decode (rest.take size) with
        | some t =>
            (t :: (readLoop decode (rest.drop size)).1,
              (readLoop decode (rest.drop size)).2)
        | none => readLoop decode (rest.drop size)
  | _ => ([], [])
termination_by bytes => bytes.length
decreasing_by
  all_goals simp [List.length_drop]
  all_goals omega

theorem readLoop_nil (decode : List Nat → Option VTree) :
    readLoop decode [] = ([], []) := by
  rw [readLoop]
  simp

/-- Processing one complete, size-legal frame: the decoded tree (when the
payload decodes) is dispatched and the loop continues on the remaining
stream; an undecodable payload is skipped and the loop continues. -/
theorem readLoop_frame (decode : List Nat → Option VTree) (p rest : List Nat)
    (hp0 : 0 < p.length) (hp : p.length ≤ 1024 * 1024) :
    readLoop decode (encFrame p ++ rest) =
      match decode p with
      | some t => (t :: (readLoop decode rest).1, (readLoop decode rest).2)
      | none => readLoop decode rest := by
  have hs : p.length % 256 + 256 * (p.length / 256 % 256) +
      65536 * (p.length / 65536 % 256) +
      16777216 * (p.length / 16777216 % 256) = p.length := by omega
  simp only [encFrame, encodeLE32, List.cons_append, List.nil_append,
    List.append_assoc]
  rw [readLoop]
  simp only [hs]
  have hbad : ¬ (p.length = 0 ∨ 1024 * 1024 < p.length) := by omega
  rw [if_neg hbad]
  have hlen : ¬ ((p ++ rest).length < p.length) := by
    simp [List.length_append]
  rw [if_neg hlen]
  rw [List.take_left, List.drop_left]

/-- C3: a frame whose 4-byte little-endian header claims length 0 or more
than 1 MiB makes the reader loop exit at once: nothing is dispatched, and the
bytes after the header (the claimed payload region included) are left
unconsumed, so the frame is not skipped and no later frame is processed. -/
theorem bad_length_header_terminates (decode : List Nat → Option VTree)
    (size : Nat) (rest : List Nat)
    (hbad : size = 0 ∨ 1024 * 1024 < size) (h32 : size < 4294967296) :
    readLoop decode (encodeLE32 size ++ rest) = ([], rest) := by
  have hs : size % 256 + 256 * (size / 256 % 256) +
      65536 * (size / 65536 % 256) +
      16777216 * (size / 16777216 % 256) = size := by omega
  simp only [encodeLE32, List.cons_append, List.nil_append]
  rw [readLoop]
  simp only [hs]
  rw [if_pos hbad]

theorem bad_length_header_terminates_witness :
    readLoop (fun _ => none) (encodeLE32 1048577 ++ [7, 7]) = ([], [7, 7]) :=
  bad_length_header_terminates (fun _ => none) 1048577 [7, 7]
    (by omega) (by omega)

/-- C7: a complete, size-legal frame whose payload does not decode is the
only thing dropped: the loop goes on, the next well-formed frame is decoded
and dispatched, and the stream after it keeps being processed. -/
theorem undecodable_frame_dropped (decode : List Nat → Option VTree)
    (p q rest : List Nat) (t : VTree)
    (hp0 : 0 < p.length) (hp : p.length ≤ 1024 * 1024)
    (hq0 : 0 < q.length) (hq : q.length ≤ 1024 * 1024)
    (hdp : decode p = none) (hdq : decode q = some t) :
    readLoop decode (encFrame p ++ (encFrame q ++ rest)) =
      (t :: (readLoop decode rest).1, (readLoop decode rest).2) := by
  rw [readLoop_frame decode p _ hp0 hp, hdp]
  rw [readLoop_frame decode q rest hq0 hq, hdq]

/-- A toy payload decoder standing in for juce::ValueTree::readFromData in
concrete instances: the single byte 1 decodes to a param tree, everything
else is undecodable. -/
def toyDecode : List Nat → Option VTree :=
  fun p => if p = [1] then some (paramTree 0 1) else none

theorem undecodable_frame_dropped_witness :
    readLoop toyDecode (encFrame [0] ++ (encFrame [1] ++ [])) =
      (paramTree 0 1 :: (readLoop toyDecode []).1,
        (readLoop toyDecode []).2) :=
  undecodable_frame_dropped toyDecode [0] [1] [] (paramTree 0 1)
    (by decide) (by decide) (by decide) (by decide) (by decide) (by decide)

/-- C6 counterexample: a fully read frame whose payload fails to decode does
not terminate the reader loop: with the toy decoder, an undecodable frame
followed by a decodable one still yields a dispatched message from the
second frame, so the loop continued past the decode failure. -/
theorem decode_failure_not_fatal_counterexample :
    toyDecode [0] = none ∧
    (readLoop toyDecode (encFrame [0] ++ (encFrame [1] ++ []))).1 =
      [paramTree 0 1] ∧
    (readLoop toyDecode (encFrame [0] ++ (encFrame [1] ++ []))).1 ≠ [] := by
  have h := undecodable_frame_dropped toyDecode [0] [1] [] (paramTree 0 1)
    (by decide) (by decide) (by decide) (by decide) (by decide) (by decide)
  rw [readLoop_nil] at h
  refine ⟨by decide, ?_, ?_⟩
  · rw [h]
  · rw [h]
    simp

/-- C6 as amended: only short reads terminate the reader loop (an incomplete
payload read breaks the loop, treated as connection loss), while a completely
read frame whose payload fails to decode is dropped and the loop continues
with the rest of the stream. -/
theorem short_read_fatal_decode_failure_dropped
    (decode : List Nat → Option VTree) (size : Nat) (short p rest : List Nat)
    (hsz0 : 0 < size) (hsz : size ≤ 1024 * 1024)
    (hshort : short.length < size)
    (hp0 : 0 < p.length) (hp : p.length ≤ 1024 * 1024)
    (hdp : decode p = none) :
    readLoop decode (encodeLE32 size ++ short) = ([], []) ∧
    readLoop decode (encFrame p ++ rest) = readLoop decode rest := by
  constructor
  · have hs : size % 256 + 256 * (size / 256 % 256) +
        65536 * (size / 65536 % 256) +
        16777216 * (size / 16777216 % 256) = size := by omega
    simp only [encodeLE32, List.cons_append, List.nil_append]
    rw [readLoop]
    simp only [hs]
    have hbad : ¬ (size = 0 ∨ 1024 * 1024 < size) := by omega
    rw [if_neg hbad, if_pos hshort]
  · rw [readLoop_frame decode p rest hp0 hp, hdp]

theorem short_read_fatal_decode_failure_dropped_witness :
    readLoop toyDecode (encodeLE32 3 ++ [9, 9]) = ([], []) ∧
    readLoop toyDecode (encFrame [0] ++ [5]) = readLoop toyDecode [5] :=
  short_read_fatal_decode_failure_dropped toyDecode 3 [9, 9] [0] [5]
    (by decide) (by decide) (by decide) (by decide) (by decide) (by decide)

/-- Modelled from the spec: ipc_protocol.h, which declares the InputEvent
record and the INPUT_EVENT_MOUSE / KEY / FOCUS / RESIZE tag constants used by
InputEvent.h, is not among the sources.  Spec section 3 fixes the record
layout: kind and action tags plus button and modifiers as small unsigned
integers, x, y, data1, data2 as 16-bit signed integers, and a 32-bit
timestamp / generation field.  The numeric tag values are not fixed by the
spec; only their identity matters to the factories. -/
structure InputEvent where
  type : Nat
  action : Nat
  button : Nat
  modifiers : Nat
  x : Int
  y : Int
  data1 : Int
  data2 : Int
  timestamp : Nat
deriving DecidableEq, Repr, Inhabited

def INPUT_EVENT_MOUSE : Nat := 0
def INPUT_EVENT_KEY : Nat := 1
def INPUT_EVENT_FOCUS : Nat := 2
def INPUT_EVENT_RESIZE : Nat := 3

/-- The zero-initialised record, InputEvent e = {}. -/
def InputEvent.zero : InputEvent := ⟨0, 0, 0, 0, 0, 0, 0, 0, 0⟩

/-- static_cast to int16_t: wrap into [-32768, 32767]. -/
def toInt16 (x : Int) : Int := (x + 32768) % 65536 - 32768

/-- C++ float-to-integer conversion: truncation toward zero.  The embedding
treats the float arithmetic scale * 100 as exact rational arithmetic. -/
def truncToInt (q : ℚ) : Int := q.num / q.den

/-- InputEventFactory::resize from InputEvent.h: width and height go into x
and y, scale times 100 into data1, and the surface generation id into the
timestamp field. -/
def InputEventFactory.resize (width height : Int) (scale : ℚ)
    (surfaceID : Nat) : InputEvent :=
  { InputEvent.zero with
    type := INPUT_EVENT_RESIZE
    x := toInt16 width
    y := toInt16 height
    data1 := toInt16 (truncToInt (scale * 100))
    timestamp := surfaceID }

theorem toInt16_eq_self (x : Int) (h1 : -32768 ≤ x) (h2 : x ≤ 32767) :
    toInt16 x = x := by
  unfold toInt16
  omega

theorem truncToInt_intCast (n : Int) : truncToInt (n : ℚ) = n := by
  simp [truncToInt]

/-- C8: for in-range width, height and a scale whose value times 100 is an
integer in int16 range, the Resize factory produces an event tagged
INPUT_EVENT_RESIZE whose x and y carry the width and height, whose data1
carries scale times 100, and whose 32-bit timestamp field carries the surface
generation id, not a time value. -/
theorem resize_event_fields (width height : Int) (scale : ℚ)
    (surfaceID : Nat) (n : Int)
    (hw1 : -32768 ≤ width) (hw2 : width ≤ 32767)
    (hh1 : -32768 ≤ height) (hh2 : height ≤ 32767)
    (hn : scale * 100 = (n : ℚ)) (hn1 : -32768 ≤ n) (hn2 : n ≤ 32767) :
    (InputEventFactory.resize width height scale surfaceID).type =
        INPUT_EVENT_RESIZE ∧
    (InputEventFactory.resize width height scale surfaceID).x = width ∧
    (InputEventFactory.resize width height scale surfaceID).y = height ∧
    (InputEventFactory.resize width height scale surfaceID).data1 = n ∧
    (InputEventFactory.resize width height scale surfaceID).timestamp =
        surfaceID := by
  refine ⟨rfl, ?_, ?_, ?_, rfl⟩
  · exact toInt16_eq_self width hw1 hw2
  · exact toInt16_eq_self height hh1 hh2
  · show toInt16 (truncToInt (scale * 100)) = n
    rw [hn, truncToInt_intCast]
    exact toInt16_eq_self n hn1 hn2

theorem resize_event_fields_witness :
    (InputEventFactory.resize 800 600 2 42).type = INPUT_EVENT_RESIZE ∧
    (InputEventFactory.resize 800 600 2 42).x = 800 ∧
    (InputEventFactory.resize 800 600 2 42).y = 600 ∧
    (InputEventFactory.resize 800 600 2 42).data1 = 200 ∧
    (InputEventFactory.resize 800 600 2 42).timestamp = 42 :=
  resize_event_fields 800 600 2 42 200 (by norm_num) (by norm_num)
    (by norm_num) (by norm_num) (by norm_num) (by norm_num) (by norm_num)

/-- Observable actions of ChildProcess::stop, in program order. -/
inductive CPAction where
  | closeFD (fd : Int)
  | pollWait
  | sleep10
  | killSignal
  | finalWait
deriving DecidableEq, Repr

/-- The fields of ChildProcess: the child pid (0 when none) and the two pipe
file descriptors (-1 when not held). -/
structure CPState where
  childPid : Int
  stdinPipeFD : Int
  stdoutPipeFD : Int
deriving DecidableEq, Repr, Inhabited

/-- Child behaviour oracle: the time in milliseconds after the stdin EOF at
which the child exits, or none when it ignores graceful shutdown.  The
WNOHANG waitpid probe performed at time t observes the exit when the exit
time is at most t. -/
def pollSeesExit (exitTime : Option Nat) (i : Nat) : Bool :=
  match exitTime with
  | none => false
  | some e => decide (e ≤ 10 * i)

/-- The graceful-wait loop of ChildProcess::stop: up to 20 WNOHANG polls,
10 ms apart, starting at time 0.  Returns the action trace of the loop and
whether some poll observed the exit (in which case the loop breaks without
sleeping again). -/
def pollLoop (exitTime : Option Nat) : Nat → Nat → List CPAction × Bool
  | 0, _ => ([], false)
  | fuel + 1, i =>
      if pollSeesExit exitTime i then ([CPAction.pollWait], true)
      else
        (CPAction.pollWait :: CPAction.sleep10 ::
          (pollLoop exitTime fuel (i + 1)).1,
          (pollLoop exitTime fuel (i + 1)).2)

/-- ChildProcess::stop: close the stdin pipe first (the EOF is the graceful
shutdown request), then wait up to 200 ms for the child to exit, force-kill
and reap it if it has not, clear the pid unconditionally, and close the
stdout pipe last. -/
def ChildProcess.stop (s : CPState) (exitTime : Option Nat) :
    CPState × List CPAction :=
  let closeIn :=
    if 0 ≤ s.stdinPipeFD then [CPAction.closeFD s.stdinPipeFD] else []
  let sIn := if 0 ≤ s.stdinPipeFD then { s with stdinPipeFD := -1 } else s
  let wait :=
    if 0 < sIn.childPid then
      (pollLoop exitTime 20 0).1 ++
        (if (pollLoop exitTime 20 0).2 then []
         else [CPAction.killSignal, CPAction.finalWait])
    else []
  let sWait := if 0 < sIn.childPid then { sIn with childPid := 0 } else sIn
  let closeOut :=
    if 0 ≤ sWait.stdoutPipeFD then [CPAction.closeFD sWait.stdoutPipeFD]
    else []
  let sOut :=
    if 0 ≤ sWait.stdoutPipeFD then { sWait with stdoutPipeFD := -1 }
    else sWait
  (sOut, closeIn ++ wait ++ closeOut)

/-- ChildProcess::isRunning: a pid of at most 0 reports not running without
probing; otherwise kill(pid, 0) probes liveness (the alive oracle). -/
def ChildProcess.isRunning (s : CPState) (alive : Bool) : Bool :=
  if s.childPid ≤ 0 then false else alive

theorem pollLoop_actions (exitTime : Option Nat) (fuel : Nat) :
    ∀ i a, a ∈ (pollLoop exitTime fuel i).1 →
      a = CPAction.pollWait ∨ a = CPAction.sleep10 := by
  induction fuel with
  | zero => intro i a ha; simp [pollLoop] at ha
  | succ n ih =>
      intro i a ha
      by_cases h : pollSeesExit exitTime i
      · rw [pollLoop, if_pos h] at ha
        simp at ha
        exact Or.inl ha
      · rw [pollLoop, if_neg h] at ha
        rcases List.mem_cons.mp ha with h1 | h1
        · exact Or.inl h1
        · rcases List.mem_cons.mp h1 with h2 | h2
          · exact Or.inr h2
          · exact ih (i + 1) a h2

theorem pollLoop_sleep_count (exitTime : Option Nat) (fuel : Nat) :
    ∀ i, (pollLoop exitTime fuel i).1.count CPAction.sleep10 ≤ fuel := by
  induction fuel with
  | zero => intro i; simp [pollLoop]
  | succ n ih =>
      intro i
      by_cases h : pollSeesExit exitTime i
      · rw [pollLoop, if_pos h]
        simp
      · rw [pollLoop, if_neg h]
        have := ih (i + 1)
        simp [List.count_cons]
        omega

theorem pollLoop_false_iff (exitTime : Option Nat) (fuel : Nat) :
    ∀ i, (pollLoop exitTime fuel i).2 = false ↔
      ∀ j, i ≤ j → j < i + fuel → pollSeesExit exitTime j = false := by
  induction fuel with
  | zero =>
      intro i
      simp [pollLoop]
      omega
  | succ n ih =>
      intro i
      by_cases h : pollSeesExit exitTime i
      · rw [pollLoop, if_pos h]
        constructor
        · intro hfalse
          simp at hfalse
        · intro hall
          have h2 := hall i le_rfl (by omega)
          rw [h2] at h
          exact absurd h (by simp)
      · rw [pollLoop, if_neg h]
        rw [ih (i + 1)]
        constructor
        · intro hall j hij hjf
          rcases Nat.eq_or_lt_of_le hij with h1 | h1
          · rw [← h1]
            simpa using h
          · exact hall j h1 (by omega)
        · intro hall j hij hjf
          exact hall j (by omega) (by omega)

theorem ChildProcess.stop_eq (s : CPState) (exitTime : Option Nat)
    (hin : 0 ≤ s.stdinPipeFD) (hpid : 0 < s.childPid)
    (hout : 0 ≤ s.stdoutPipeFD) :
    ChildProcess.stop s exitTime = (⟨0, -1, -1⟩,
      CPAction.closeFD s.stdinPipeFD ::
        ((pollLoop exitTime 20 0).1 ++
          (if (pollLoop exitTime 20 0).2 then []
           else [CPAction.killSignal, CPAction.finalWait]) ++
          [CPAction.closeFD s.stdoutPipeFD])) := by
  simp [ChildProcess.stop, hin, hpid, hout]

/-- C4: stop on a launched child (pid and both pipe descriptors held) first
closes the stdin pipe as the graceful-shutdown signal; the wait budget is at
most 20 sleeps of 10 ms (200 ms, within 100-300 ms); a child that exits
within the grace window is never sent the forceful signal; a child that
ignores the EOF receives the forceful kill followed by a final wait; and in
every case stop returns with the pid cleared, so isRunning reports false
immediately afterwards regardless of any liveness probe. -/
theorem stop_graceful_then_kill (s : CPState) (exitTime : Option Nat)
    (hin : 0 ≤ s.stdinPipeFD) (hpid : 0 < s.childPid)
    (hout : 0 ≤ s.stdoutPipeFD) :
    (ChildProcess.stop s exitTime).2.head? =
        some (CPAction.closeFD s.stdinPipeFD) ∧
    ((ChildProcess.stop s exitTime).2.count CPAction.sleep10) * 10 ≤ 200 ∧
    (∀ e, exitTime = some e → e ≤ 190 →
      CPAction.killSignal ∉ (ChildProcess.stop s exitTime).2) ∧
    (exitTime = none →
      CPAction.killSignal ∈ (ChildProcess.stop s exitTime).2 ∧
      CPAction.finalWait ∈ (ChildProcess.stop s exitTime).2) ∧
    (ChildProcess.stop s exitTime).1.childPid = 0 ∧
    (∀ alive, ChildProcess.isRunning (ChildProcess.stop s exitTime).1 alive
      = false) := by
  rw [ChildProcess.stop_eq s exitTime hin hpid hout]
  refine ⟨rfl, ?_, ?_, ?_, rfl, ?_⟩
  · have hcnt := pollLoop_sleep_count exitTime 20 0
    rcases hb : (pollLoop exitTime 20 0).2 with _ | _ <;>
      (simp [hb, List.count_cons, List.count_append]; omega)
  · intro e he hle
    subst he
    have hb : (pollLoop (some e) 20 0).2 = true := by
      rcases hcase : (pollLoop (some e) 20 0).2 with _ | _
      · have h19 := (pollLoop_false_iff (some e) 20 0).mp hcase 19
          (by omega) (by omega)
        simp [pollSeesExit] at h19
        omega
      · rfl
    rw [if_pos hb]
    intro hmem
    simp at hmem
    have h2 := pollLoop_actions (some e) 20 0 CPAction.killSignal hmem
    rcases h2 with h2 | h2 <;> exact CPAction.noConfusion h2
  · intro he
    subst he
    have hb : (pollLoop none 20 0).2 = false := by
      rw [pollLoop_false_iff none 20 0]
      intro j _ _
      rfl
    rw [if_neg (by rw [hb]; exact Bool.false_ne_true)]
    refine ⟨?_, ?_⟩ <;> simp
  · intro alive
    simp [ChildProcess.isRunning]

theorem stop_graceful_then_kill_witness :
    (ChildProcess.stop ⟨5, 3, 4⟩ (some 50)).2.head? =
        some (CPAction.closeFD 3) ∧
    CPAction.killSignal ∉ (ChildProcess.stop ⟨5, 3, 4⟩ (some 50)).2 ∧
    (ChildProcess.stop ⟨5, 3, 4⟩ (some 50)).1.childPid = 0 ∧
    ChildProcess.isRunning (ChildProcess.stop ⟨5, 3, 4⟩ (some 50)).1 true
      = false := by
  have h := stop_graceful_then_kill ⟨5, 3, 4⟩ (some 50) (by decide)
    (by decide) (by decide)
  exact ⟨h.1, h.2.2.1 50 rfl (by decide), h.2.2.2.2.1, h.2.2.2.2.2 true⟩

/-- Platform oracle for ChildProcess::launch as the parent observes it:
whether stat finds the executable, the descriptor pairs returned by the two
pipe calls when they succeed, and the fork return value in the parent (the
child pid on success, negative on failure). -/
structure LaunchEnv where
  statOK : Bool
  stdinPipes : Option (Int × Int)
  stdoutPipes : Option (Int × Int)
  forkPid : Int
deriving DecidableEq, Repr, Inhabited

/-- Outcome of ChildProcess::launch: the return value, the resulting fields,
the descriptors acquired from successful pipe calls in program order, the
descriptors passed to close in program order, and whether fork was reached. -/
structure LaunchResult where
  ok : Bool
  state : CPState
  acquired : List Int
  closed : List Int
  spawned : Bool
deriving DecidableEq, Repr, Inhabited

/-- ChildProcess::launch (parent side): stat the executable first; create the
stdin pipe, then the stdout pipe (closing the stdin pair if that fails);
fork; on fork failure close all four descriptors; on success close the
child-side ends and keep the write end of stdin and the read end of stdout. -/
def ChildProcess.launch (s : CPState) (env : LaunchEnv) : LaunchResult :=
  if env.statOK = false then ⟨false, s, [], [], false⟩
  else
    match env.stdinPipes with
    | none => ⟨false, s, [], [], false⟩
    | some (r1, w1) =>
        match env.stdoutPipes with
        | none => ⟨false, s, [r1, w1], [r1, w1], false⟩
        | some (r2, w2) =>
            if 0 < env.forkPid then
              ⟨true,
                { childPid := env.forkPid, stdinPipeFD := w1,
                  stdoutPipeFD := r2 },
                [r1, w1, r2, w2], [r1, w2], true⟩
            else
              ⟨false, s, [r1, w1, r2, w2], [r1, w1, r2, w2], true⟩

/-- C5: launch on a missing executable fails before any IPC primitive is
created or any process spawned, leaving the state untouched; and on every
failure path after the existence check (pipe creation or fork failure) the
descriptors acquired so far are exactly the ones closed before returning,
and the state is unchanged. -/
theorem launch_failure_no_leak (s : CPState) (env : LaunchEnv) :
    (env.statOK = false →
      ChildProcess.launch s env = ⟨false, s, [], [], false⟩) ∧
    ((ChildProcess.launch s env).ok = false →
      (ChildProcess.launch s env).closed =
        (ChildProcess.launch s env).acquired ∧
      (ChildProcess.launch s env).state = s) := by
  obtain ⟨st, p1, p2, fk⟩ := env
  constructor
  · intro h
    subst h
    rfl
  · intro hok
    cases st with
    | false => exact ⟨rfl, rfl⟩
    | true =>
        rcases p1 with _ | ⟨r1, w1⟩
        · exact ⟨rfl, rfl⟩
        · rcases p2 with _ | ⟨r2, w2⟩
          · exact ⟨rfl, rfl⟩
          · by_cases hf : 0 < fk
            · exact absurd hok (by simp [ChildProcess.launch, hf])
            · simp [ChildProcess.launch, hf]

theorem launch_failure_no_leak_witness :
    (ChildProcess.launch ⟨0, -1, -1⟩ ⟨false, none, none, -1⟩ =
      ⟨false, ⟨0, -1, -1⟩, [], [], false⟩) ∧
    ((ChildProcess.launch ⟨0, -1, -1⟩ ⟨true, some (3, 4), some (5, 6), -1⟩).closed
        = (ChildProcess.launch ⟨0, -1, -1⟩
            ⟨true, some (3, 4), some (5, 6), -1⟩).acquired ∧
      (ChildProcess.launch ⟨0, -1, -1⟩
          ⟨true, some (3, 4), some (5, 6), -1⟩).state = ⟨0, -1, -1⟩) := by
  refine ⟨?_, ?_⟩
  · exact (launch_failure_no_leak ⟨0, -1, -1⟩ ⟨false, none, none, -1⟩).1 rfl
  · exact (launch_failure_no_leak ⟨0, -1, -1⟩
      ⟨true, some (3, 4), some (5, 6), -1⟩).2 (by decide)

/-- Observable actions of ComposeProvider::launch, in program order. -/
inductive PAction where
  | surfaceCreate
  | createServer
  | childLaunch
  | ipcStart
  | sendPort
  | sendSurfaceID
  | viewCreate
  | surfaceRelease
  | destroyServer
deriving DecidableEq, Repr

/-- Resources held by the session orchestrator. -/
structure PState where
  surfaceLive : Bool
  serverLive : Bool
  childRunning : Bool
deriving DecidableEq, Repr, Inhabited

/-- Platform oracle for ComposeProvider::launch: whether the surface is
allocated, the bootstrap service name returned by MachPortIPC::createServer
(empty when registration failed, forcing the surface-id fall-back), whether
ChildProcess::launch succeeds, and the Mach port produced for the surface
(0 on failure). -/
structure PEnv where
  surfaceCreateOK : Bool
  machService : String
  childLaunchOK : Bool
  surfacePort : Nat
deriving DecidableEq, Repr, Inhabited

/-- ComposeProvider::launch on the platform with capability transfer: create
the surface, register the capability-transfer server, launch the child; on
child-launch failure release the surface and then destroy the server before
returning false; on success wire the event channel, hand off the surface by
Mach port (or send the surface id when no server is up), and create the
view. -/
def ComposeProvider.launch (env : PEnv) : Bool × PState × List PAction :=
  if env.surfaceCreateOK = false then
    (false, ⟨false, false, false⟩, [PAction.surfaceCreate])
  else
    let serverUp := env.machService ≠ ""
    if env.childLaunchOK = false then
      (false, ⟨false, false, false⟩,
        [PAction.surfaceCreate, PAction.createServer, PAction.childLaunch,
          PAction.surfaceRelease, PAction.destroyServer])
    else
      (true, ⟨true, serverUp, true⟩,
        [PAction.surfaceCreate, PAction.createServer, PAction.childLaunch,
          PAction.ipcStart] ++
        (if serverUp ∧ env.surfacePort ≠ 0 then [PAction.sendPort]
         else if serverUp then []
         else [PAction.sendSurfaceID]) ++
        [PAction.viewCreate])

/-- C9: every failing path of the orchestrator's launch leaves neither a live
surface nor a live capability server behind, and the action order on the
child-launch failure path releases the surface first and destroys the
capability server second; on the surface-creation failure path nothing was
acquired, so nothing is released. -/
theorem provider_launch_rollback (env : PEnv)
    (h : (ComposeProvider.launch env).1 = false) :
    (ComposeProvider.launch env).2.1.surfaceLive = false ∧
    (ComposeProvider.launch env).2.1.serverLive = false ∧
    ((ComposeProvider.launch env).2.2 = [PAction.surfaceCreate] ∨
      (ComposeProvider.launch env).2.2 =
        [PAction.surfaceCreate, PAction.createServer, PAction.childLaunch,
          PAction.surfaceRelease, PAction.destroyServer]) := by
  obtain ⟨sOK, svc, cOK, port⟩ := env
  cases sOK with
  | false => exact ⟨rfl, rfl, Or.inl rfl⟩
  | true =>
      cases cOK with
      | false => exact ⟨rfl, rfl, Or.inr rfl⟩
      | true =>
          exact absurd h (by simp [ComposeProvider.launch])

theorem provider_launch_rollback_witness :
    (ComposeProvider.launch ⟨true, "svc", false, 1⟩).2.1.surfaceLive
        = false ∧
    (ComposeProvider.launch ⟨true, "svc", false, 1⟩).2.1.serverLive
        = false ∧
    ((ComposeProvider.launch ⟨true, "svc", false, 1⟩).2.2 =
        [PAction.surfaceCreate] ∨
      (ComposeProvider.launch ⟨true, "svc", false, 1⟩).2.2 =
        [PAction.surfaceCreate, PAction.createServer, PAction.childLaunch,
          PAction.surfaceRelease, PAction.destroyServer]) :=
  provider_launch_rollback ⟨true, "svc", false, 1⟩ (by decide)
